import Mathlib

/-!
Shallow embedding of the CriticalityAnalysis service (`app.py`): the graph
construction and the three scoring computations (bottom-up usage
propagation, depth/breadth criticality scoring, and PageRank-weighted
importance), together with proofs checking the natural-language
specification against them.

Modelling conventions:
* Python floats (numpy matrices, true division) are modelled as exact
  rationals `ℚ`.
* `networkx.DiGraph` objects are modelled by their edge lists; predecessor
  and successor queries deduplicate parallel edges exactly as the simple
  digraph does, keeping first-occurrence (insertion) order.
* The PageRank vector produced by `networkx.pagerank` is floating point and
  is therefore a parameter `pr : String → ℚ` of the importance definitions;
  the theorems state which of its properties (nonnegativity, positivity)
  they use.
* Functions of the source that need not terminate (`get_all_dependencies`)
  or whose termination is by a mutable visited set (`calculate_depth`,
  `find_shortest_path`) take a fuel argument and return `none` on fuel
  exhaustion; theorems either hold for every fuel or hypothesise a `some`
  result.
* The mutable default argument `visited=set()` of `calculate_depth` is
  created once in Python and retained across calls, so the embedding
  threads that set (as a `List String`) in and out of the computation.
-/

namespace CriticalityAnalysis

/-- A record of the `Mission` collection: `UUID` and `Name` fields. -/
structure MissionRec where
  UUID : String
  Name : String
deriving DecidableEq, Repr

/-- A record of the `OperationalData` collection: `UUID` and `Name` fields. -/
structure OperationalDataRec where
  UUID : String
  Name : String
deriving DecidableEq, Repr

/-- A record of the `MissionHierarchy` collection: `ChildMission` and
`ParentMission` identifiers. -/
structure HierarchyRec where
  ChildMission : String
  ParentMission : String
deriving DecidableEq, Repr

/-- A record of the `Mission_OperationalData` collection: `OperationalData`
and `Mission` identifiers. -/
structure UsageRec where
  OperationalData : String
  Mission : String
deriving DecidableEq, Repr

/-- The JSON payload consumed by all three endpoints. -/
structure InputData where
  Mission : List MissionRec
  OperationalData : List OperationalDataRec
  MissionHierarchy : List HierarchyRec
  Mission_OperationalData : List UsageRec
deriving DecidableEq, Repr

/-- Deduplication keeping the first occurrence of each element (relative to
the accumulated `seen` list), matching the insertion-order semantics of
Python dicts and networkx node/adjacency views. -/
def dedupFirstAux : List String → List String → List String
  | _, [] => []
  | seen, a :: l =>
      if a ∈ seen then dedupFirstAux seen l
      else a :: dedupFirstAux (a :: seen) l

/-- Deduplication keeping the first occurrence of each element. -/
def dedupFirst (l : List String) : List String :=
  dedupFirstAux [] l

/-- The mission identifiers, in input order (keys of the `missions` dict). -/
def missionIds (i : InputData) : List String :=
  i.Mission.map (fun m => m.UUID)

/-- The operational-data identifiers, in input order (keys of the
`operational_data` dict). -/
def dataIds (i : InputData) : List String :=
  i.OperationalData.map (fun d => d.UUID)

/-- `mission_hierarchy`: one `(ChildMission, ParentMission)` pair per
hierarchy record, the edge direction used by `bottom_up_process` and
`bfs_dfs_analysis`. -/
def hierarchyEdges (i : InputData) : List (String × String) :=
  i.MissionHierarchy.map (fun r => (r.ChildMission, r.ParentMission))

/-- `mission_data_relations`: one `(OperationalData, Mission)` pair per usage
record, the edge direction used by `bottom_up_process` and
`bfs_dfs_analysis`. -/
def usageEdges (i : InputData) : List (String × String) :=
  i.Mission_OperationalData.map (fun r => (r.OperationalData, r.Mission))

/-- The edge list of the combined graph `G` of `bottom_up_process` and
`bfs_dfs_analysis`: hierarchy edges followed by usage edges. -/
def combinedEdges (i : InputData) : List (String × String) :=
  hierarchyEdges i ++ usageEdges i

/-- `graph.predecessors(v)` on the digraph with edge list `g`: the distinct
sources of edges into `v`, in insertion order. -/
def predsOf (g : List (String × String)) (v : String) : List String :=
  dedupFirst ((g.filter (fun e => e.2 = v)).map (fun e => e.1))

/-- `graph.successors(v)` on the digraph with edge list `g`: the distinct
targets of edges out of `v`, in insertion order. -/
def succsOf (g : List (String × String)) (v : String) : List String :=
  dedupFirst ((g.filter (fun e => e.1 = v)).map (fun e => e.2))

/-- The node list of the mission-only graph `M`: the mission nodes, then any
further identifiers appearing in hierarchy edges (`add_edges_from` silently
creates nodes for unknown endpoints). -/
def mNodes (i : InputData) : List String :=
  dedupFirst (missionIds i ++
    i.MissionHierarchy.flatMap (fun r => [r.ChildMission, r.ParentMission]))

/-- One round of Kahn's algorithm: the first remaining node with no incoming
edge from a remaining node (`None` when every remaining node has one, i.e.
the remaining subgraph is cyclic). -/
def readyNode (edges : List (String × String)) (remaining : List String) :
    Option String :=
  remaining.find? (fun v => remaining.all (fun u => decide ¬((u, v) ∈ edges)))

/-- Kahn's algorithm with fuel, modelling `networkx.topological_sort` on the
mission graph: repeatedly output a node with in-degree zero among the
remaining nodes; `none` models the `NetworkXUnfeasible` exception raised on
a cycle. -/
def topoAux (edges : List (String × String)) :
    Nat → List String → List String → Option (List String)
  | 0, remaining, acc =>
      if remaining.isEmpty then some acc.reverse else none
  | fuel + 1, remaining, acc =>
      match readyNode edges remaining with
      | none => if remaining.isEmpty then some acc.reverse else none
      | some v => topoAux edges fuel (remaining.erase v) (v :: acc)

/-- `traversal_path = list(nx.topological_sort(M))`, or `none` when the
mission graph is cyclic. -/
def topoSortM (i : InputData) : Option (List String) :=
  topoAux (hierarchyEdges i) (mNodes i).length (mNodes i) []

/-- The children used by the non-leaf branch of `bottom_up_process`:
`[n for n in M.predecessors(m_uuid) if n in missions]`. -/
def buChildren (i : InputData) (m : String) : List String :=
  (predsOf (hierarchyEdges i) m).filter (fun n => decide (n ∈ missionIds i))

/-- The data nodes used by the leaf branch of `bottom_up_process`:
`[n for n in G.predecessors(m_uuid) if n in operational_data]`. -/
def connectedDataNodes (i : InputData) (m : String) : List String :=
  (predsOf (combinedEdges i) m).filter (fun n => decide (n ∈ dataIds i))

/-- The row assigned to a leaf mission: 100 in the column of every directly
connected data node, 0 elsewhere (the row starts as zeros and only the
connected columns are written). -/
def leafRow (i : InputData) (m : String) : String → ℚ :=
  fun d => if d ∈ connectedDataNodes i m then 100 else 0

/-- The row `bottom_up_process` computes for mission `m` from the current
matrix: the leaf branch when `m` has in-degree 0 in `M`
(`find_leaf_mission_nodes`), otherwise the element-wise mean of the rows of
its children already computed (all-zero when it has no known children). -/
def rowFor (i : InputData) (mat : String → String → ℚ) (m : String) :
    String → ℚ :=
  if predsOf (hierarchyEdges i) m = [] then leafRow i m
  else if buChildren i m = [] then fun _ => 0
  else fun d =>
    (((buChildren i m).map (fun c => mat c d)).sum) /
      ((buChildren i m).length : ℚ)

/-- The all-zero matrix `np.zeros((len(missions), len(operational_data)))`,
as a function on identifiers. -/
def matZero : String → String → ℚ := fun _ _ => 0

/-- One iteration of the matrix-filling loop: overwrite the row of `m`. -/
def buStep (i : InputData) (mat : String → String → ℚ) (m : String) :
    String → String → ℚ :=
  Function.update mat m (rowFor i mat m)

/-- The matrix-filling loop over a traversal path. -/
def runBU (i : InputData) (p : List String) (mat : String → String → ℚ) :
    String → String → ℚ :=
  p.foldl (buStep i) mat

/-- One iteration of the loop as executed: `mission_to_index[m_uuid]` raises
`KeyError` when the traversal path holds an identifier that is not a known
mission, modelled by `none`. -/
def buStepChecked (i : InputData) (st : Option (String → String → ℚ))
    (m : String) : Option (String → String → ℚ) :=
  match st with
  | none => none
  | some mat => if m ∈ missionIds i then some (buStep i mat m) else none

/-- The whole `bottom_up_process` computation: `none` models the request
failing with an uncaught exception.  On a cyclic mission graph the code
catches `NetworkXUnfeasible`, only logs, and then crashes on the unbound
`traversal_path` name (an uncaught `NameError`, not a structured
CyclicHierarchy error); on a traversal node outside the mission dict it
crashes with `KeyError`. -/
def bottom_up_process (i : InputData) : Option (String → String → ℚ) :=
  match topoSortM i with
  | none => none
  | some p => p.foldl (buStepChecked i) (some matZero)

/-- The list comprehension
`[calculate_depth(graph, p, visited) for p in graph.predecessors(node_id)]`,
evaluated left to right against the one shared visited set; `step` is the
depth computation at the next recursion level. -/
def calcDepthList (step : String → List String → Option (Nat × List String)) :
    List String → List String → Option (List Nat × List String)
  | [], visited => some ([], visited)
  | p :: ps, visited =>
      match step p visited with
      | none => none
      | some (d, vis1) =>
          match calcDepthList step ps vis1 with
          | none => none
          | some (ds, vis2) => some (d :: ds, vis2)

/-- `calculate_depth(graph, node_id, visited)`.  The Python `visited`
argument is one mutable set shared by every recursive call (and, via the
mutable default argument, by every later top-level call), so the embedding
threads it in and out.  Fuel only models the call stack: the source
function always terminates because `visited` grows. -/
def calculate_depth (g : List (String × String)) :
    Nat → String → List String → Option (Nat × List String)
  | 0, _, _ => none
  | fuel + 1, node, visited =>
      if node ∈ visited then some (0, visited)
      else
        match calcDepthList (fun p vis => calculate_depth g fuel p vis)
            (predsOf g node) (node :: visited) with
        | none => none
        | some (depths, vis) =>
            some (if depths = [] then 0 else 1 + depths.foldr max 0, vis)

/-- `calculate_breadth(graph, node_id)`: the number of successors. -/
def calculate_breadth (g : List (String × String)) (node : String) : Nat :=
  (succsOf g node).length

/-- One iteration of the score loop of `bfs_dfs_analysis`: compute the depth
of the next data node against the shared visited set and record its raw
criticality score `breadth + 1 / (depth + 1)`. -/
def critStep (g : List (String × String)) (fuel : Nat)
    (st : Option (List (String × ℚ) × List String)) (d : String) :
    Option (List (String × ℚ) × List String) :=
  match st with
  | none => none
  | some (acc, visited) =>
      match calculate_depth g fuel d visited with
      | none => none
      | some (dep, vis) =>
          some (acc ++
            [(d, (calculate_breadth g d : ℚ) + 1 / ((dep : ℚ) + 1))], vis)

/-- The raw criticality scores of `bfs_dfs_analysis`, keyed by data
identifier, threaded through the retained visited set. -/
def rawCriticalityScores (i : InputData) (fuel : Nat)
    (visited : List String) : Option (List (String × ℚ) × List String) :=
  (dataIds i).foldl (critStep (combinedEdges i) fuel) (some ([], visited))

/-- `max(values, default=1)` over a list of rationals. -/
def maxD (l : List ℚ) (dflt : ℚ) : ℚ :=
  match l with
  | [] => dflt
  | x :: xs => xs.foldl max x

/-- `min(values, default=0)` over a list of rationals. -/
def minD (l : List ℚ) (dflt : ℚ) : ℚ :=
  match l with
  | [] => dflt
  | x :: xs => xs.foldl min x

/-- The `Name` of the data record with the given `UUID` (dict lookup; empty
string when absent, which the endpoints never hit for known data ids). -/
def dataLabel (i : InputData) (v : String) : String :=
  match i.OperationalData.find? (fun r => r.UUID = v) with
  | some r => r.Name
  | none => ""

/-- The whole `bfs_dfs_analysis` computation: the normalized criticality
scores keyed by data label (the `criticality_scores` field of the
response), paired with the visited set as the retained mutable default of
`calculate_depth` leaves it.  Note there is no cycle check anywhere on this
path: the traversal just stops at already-visited nodes. -/
def bfs_dfs_analysis (i : InputData) (fuel : Nat) (visited : List String) :
    Option (List (String × ℚ) × List String) :=
  match rawCriticalityScores i fuel visited with
  | none => none
  | some (raw, vis) =>
      let vals := raw.map (fun p => p.2)
      let mx := maxD vals 1
      let mn := minD vals 0
      some (raw.map (fun p =>
        (dataLabel i p.1,
          if mn < mx then 1 + 3 * (p.2 - mn) / (mx - mn) else 1)), vis)

/-- The edge list of the graph of `pagerank_analysis`: hierarchy edges
directed `ParentMission → ChildMission` and usage edges directed
`Mission → OperationalData` (the reverse of the other two endpoints). -/
def pagerankEdges (i : InputData) : List (String × String) :=
  i.MissionHierarchy.map (fun r => (r.ParentMission, r.ChildMission)) ++
    i.Mission_OperationalData.map (fun r => (r.Mission, r.OperationalData))

/-- `G.nodes[v].get('type') == 'OperationalData'` in `pagerank_analysis`:
node attributes are written for missions first and operational data second,
so a `UUID` in both collections carries the `OperationalData` type, and
nodes auto-created from edges carry none. -/
def isOperationalData (i : InputData) (v : String) : Prop :=
  v ∈ dataIds i

instance (i : InputData) (v : String) : Decidable (isOperationalData i v) :=
  inferInstanceAs (Decidable (v ∈ dataIds i))

/-- `find_shortest_path` of `pagerank_analysis`: breadth-first search over
successor edges keeping whole paths in the queue, returning the first path
reaching `endN`, and `[]` when the queue empties.  Fuel only models the
iteration count: the source loop always terminates because each node is
expanded at most once. -/
def bfsAux (g : List (String × String)) (endN : String) :
    Nat → List (List String) → List String → Option (List String)
  | 0, _, _ => none
  | fuel + 1, queue, visited =>
      match queue with
      | [] => some []
      | path :: rest =>
          let node := path.getLastD ""
          if node = endN then some path
          else if node ∈ visited then bfsAux g endN fuel rest visited
          else
            bfsAux g endN fuel
              (rest ++ (succsOf g node).map (fun nb => path ++ [nb]))
              (node :: visited)

/-- `find_shortest_path(graph, start, end)` from its initial state: queue
`deque([[start]])`, visited `set()`. -/
def find_shortest_path (g : List (String × String)) (s e : String)
    (fuel : Nat) : Option (List String) :=
  bfsAux g e fuel [[s]] []

/-- `adjust_score_for_path_length(score, path_length)`: the score divided by
the path length, or 0 when the path length is 0 (no path found). -/
def adjust_score_for_path_length (score : ℚ) (path_length : Nat) : ℚ :=
  if 0 < path_length then score / (path_length : ℚ) else 0

/-- One step of the accumulation inside `get_all_dependencies`: bind the
recursive closure of the next direct dependency into the accumulated set. -/
def depsStep (recurse : String → Option (Finset String))
    (acc : Option (Finset String)) (d : String) : Option (Finset String) :=
  match acc, recurse d with
  | some s, some sd => some (s ∪ sd)
  | _, _ => none

/-- `get_all_dependencies(graph, node_id)` of `pagerank_analysis`: the naive
recursive forward closure, with no visited set, no memoization and no
traversal bound.  `none` on fuel exhaustion models the unbounded recursion
of the source (a Python `RecursionError` on any cycle reachable from the
node). -/
def get_all_dependencies (g : List (String × String)) :
    Nat → String → Option (Finset String)
  | 0, _ => none
  | fuel + 1, v =>
      (succsOf g v).foldl (depsStep (get_all_dependencies g fuel))
        (some (succsOf g v).toFinset)

/-- The adjusted importance weight of node `v` for mission `m`:
`adjust_score_for_path_length(pageRank(v), len(find_shortest_path(G, m, v)))`.
The path length Python computes is `len` of the node list, not an edge
count. -/
def adjusted_score (i : InputData) (pr : String → ℚ) (fb : Nat)
    (m v : String) : ℚ :=
  match find_shortest_path (pagerankEdges i) m v fb with
  | none => 0
  | some p => adjust_score_for_path_length (pr v) p.length

/-- The operational-data members of the dependency closure `S` of a mission:
the keys of its `adjusted_scores` dict. -/
def depsData (i : InputData) (S : Finset String) : Finset String :=
  S.filter (fun v => isOperationalData i v)

/-- `total_adjusted_score` for a mission whose dependency closure is `S`. -/
def total_adjusted_score (i : InputData) (pr : String → ℚ) (fb : Nat)
    (m : String) (S : Finset String) : ℚ :=
  (depsData i S).sum (fun v => adjusted_score i pr fb m v)

/-- The per-mission normalized importance score:
`adjusted_scores[v] /= total if total > 0 else 1`. -/
def normalized_score (i : InputData) (pr : String → ℚ) (fb : Nat)
    (m : String) (S : Finset String) (v : String) : ℚ :=
  adjusted_score i pr fb m v /
    (if 0 < total_adjusted_score i pr fb m S then
      total_adjusted_score i pr fb m S
    else 1)

/-- An entry of the final importance matrix: the normalized score when the
data node is a key of the mission score dict, and the explicitly filled 0
otherwise. -/
def importance_entry (i : InputData) (pr : String → ℚ) (fb : Nat)
    (m : String) (S : Finset String) (d : String) : ℚ :=
  if d ∈ depsData i S then normalized_score i pr fb m S d else 0

/-- Well-formed input: unique identifiers within each collection, every edge
endpoint a known identifier of the right collection, and no identifier
shared between the mission and data collections.  This is the data-model
invariant of the specification (vertex identifiers are unique within their
type; every edge endpoint references an existing vertex). -/
def WFInput (i : InputData) : Prop :=
  (missionIds i).Nodup ∧ (dataIds i).Nodup ∧
    (∀ r ∈ i.MissionHierarchy,
      r.ChildMission ∈ missionIds i ∧ r.ParentMission ∈ missionIds i) ∧
    (∀ r ∈ i.Mission_OperationalData,
      r.OperationalData ∈ dataIds i ∧ r.Mission ∈ missionIds i) ∧
    (∀ x ∈ missionIds i, x ∉ dataIds i)

instance (i : InputData) : Decidable (WFInput i) := by
  unfold WFInput
  infer_instance

/-- A path in the digraph with edge list `g` from `s` to `e`: a nonempty
vertex list starting at `s`, ending at `e`, each consecutive pair an
edge. -/
def IsPath (g : List (String × String)) (s e : String)
    (p : List String) : Prop :=
  p.head? = some s ∧ p.getLast? = some e ∧
    List.Chain' (fun a b => (a, b) ∈ g) p

instance (g : List (String × String)) (s e : String) (p : List String) :
    Decidable (IsPath g s e p) := by
  unfold IsPath
  infer_instance

/-- The loop invariant of the breadth-first search `find_shortest_path`:
every queue entry is a path from `s` to its last vertex; queue entries are
sorted by length and span at most two consecutive lengths `L` and `L + 1`;
the target is never marked visited; every path from `s` of length at most
`L` ends in a visited vertex or is dominated by a queue entry no longer
than it; and the successors of visited vertices are visited or enqueued
within length `L + 1`. -/
def BfsInv (g : List (String × String)) (s e : String)
    (queue : List (List String)) (visited : List String) : Prop :=
  (∀ p ∈ queue, ∃ w, p.getLast? = some w ∧ IsPath g s w p) ∧
  List.Pairwise (fun p q : List String => p.length ≤ q.length) queue ∧
  e ∉ visited ∧
  (∃ L : Nat, 1 ≤ L ∧
    (∀ p ∈ queue, L ≤ p.length ∧ p.length ≤ L + 1) ∧
    (∀ w qp, IsPath g s w qp → qp.length ≤ L →
      w ∈ visited ∨ ∃ r ∈ queue, r.getLast? = some w ∧ r.length ≤ qp.length) ∧
    (∀ v ∈ visited, ∀ x, (v, x) ∈ g →
      x ∈ visited ∨ ∃ r ∈ queue, r.getLast? = some x ∧ r.length ≤ L + 1))

/-- The distinct missions directly using a data node, read straight from the
usage records (the specification reading of breadth for a data node). -/
def usingMissions (i : InputData) (d : String) : List String :=
  dedupFirst
    ((i.Mission_OperationalData.filter
      (fun r => r.OperationalData = d)).map (fun r => r.Mission))

/-- A list of vertices is topologically ordered for `edges` when no vertex
has an incoming edge from itself or a later vertex: every predecessor of a
vertex was output before it (or is outside the list altogether). -/
def TopoOrdered (edges : List (String × String)) : List String → Prop
  | [] => True
  | v :: rest => (∀ u ∈ v :: rest, (u, v) ∉ edges) ∧ TopoOrdered edges rest

/-- Example input: mission `M2` is the parent of leaf mission `M1`, data
node `D1` is used by `M1` (scenario A of the specification). -/
def exTwoLevel : InputData :=
  ⟨[⟨"M1", "Mission One"⟩, ⟨"M2", "Mission Two"⟩],
   [⟨"D1", "Data One"⟩],
   [⟨"M1", "M2"⟩],
   [⟨"D1", "M1"⟩]⟩

/-- Example input: two missions whose hierarchy edges form a cycle, and one
data node used by `A` (scenario B of the specification). -/
def exCycle : InputData :=
  ⟨[⟨"A", "Mission A"⟩, ⟨"B", "Mission B"⟩],
   [⟨"D", "Data D"⟩],
   [⟨"A", "B"⟩, ⟨"B", "A"⟩],
   [⟨"D", "A"⟩]⟩

/-- Example input: a usage edge referencing the identifier `DX`, which is in
neither the mission list nor the operational-data list. -/
def exUnknown : InputData :=
  ⟨[⟨"M1", "Mission One"⟩], [⟨"D1", "Data One"⟩], [], [⟨"DX", "M1"⟩]⟩

/-- Example input: one mission using one data node, no hierarchy. -/
def exSingle : InputData :=
  ⟨[⟨"M1", "Mission One"⟩], [⟨"D1", "Data One"⟩], [], [⟨"D1", "M1"⟩]⟩

/-! ### List and graph helper lemmas -/

theorem mem_dedupFirstAux (x : String) :
    ∀ (l seen : List String), x ∈ dedupFirstAux seen l ↔ x ∈ l ∧ x ∉ seen := by
  intro l
  induction l with
  | nil => intro seen; simp [dedupFirstAux]
  | cons a t ih =>
    intro seen
    rw [dedupFirstAux]
    by_cases has : a ∈ seen
    · rw [if_pos has, ih seen]
      simp only [List.mem_cons]
      constructor
      · rintro ⟨hx, hn⟩
        exact ⟨Or.inr hx, hn⟩
      · rintro ⟨hor, hn⟩
        rcases hor with rfl | hx
        · exact absurd has hn
        · exact ⟨hx, hn⟩
    · rw [if_neg has]
      simp only [List.mem_cons, ih (a :: seen)]
      constructor
      · rintro (rfl | ⟨hx, hn⟩)
        · exact ⟨Or.inl rfl, has⟩
        · exact ⟨Or.inr hx, fun h => hn (Or.inr h)⟩
      · rintro ⟨rfl | hx, hn⟩
        · exact Or.inl rfl
        · by_cases hxa : x = a
          · exact Or.inl hxa
          · refine Or.inr ⟨hx, ?_⟩
            intro h
            rcases h with h1 | h2
            · exact hxa h1
            · exact hn h2

theorem mem_dedupFirst (l : List String) (x : String) :
    x ∈ dedupFirst l ↔ x ∈ l := by
  unfold dedupFirst
  rw [mem_dedupFirstAux]
  simp

theorem nodup_dedupFirstAux :
    ∀ (l seen : List String), (dedupFirstAux seen l).Nodup := by
  intro l
  induction l with
  | nil => intro seen; rw [dedupFirstAux]; exact List.nodup_nil
  | cons a t ih =>
    intro seen
    rw [dedupFirstAux]
    by_cases has : a ∈ seen
    · rw [if_pos has]; exact ih seen
    · rw [if_neg has]
      refine List.nodup_cons.mpr ⟨?_, ih (a :: seen)⟩
      intro hmem
      exact ((mem_dedupFirstAux a t (a :: seen)).mp hmem).2
        (List.mem_cons_self _ _)

theorem nodup_dedupFirst (l : List String) : (dedupFirst l).Nodup :=
  nodup_dedupFirstAux l []

theorem mem_predsOf (g : List (String × String)) (u v : String) :
    u ∈ predsOf g v ↔ (u, v) ∈ g := by
  unfold predsOf
  rw [mem_dedupFirst]
  simp only [List.mem_map, List.mem_filter, decide_eq_true_eq]
  constructor
  · rintro ⟨⟨a, b⟩, ⟨heg, he2⟩, rfl⟩
    simp only at he2
    simpa [he2] using heg
  · intro h
    exact ⟨(u, v), ⟨h, rfl⟩, rfl⟩

theorem mem_succsOf (g : List (String × String)) (a b : String) :
    b ∈ succsOf g a ↔ (a, b) ∈ g := by
  unfold succsOf
  rw [mem_dedupFirst]
  simp only [List.mem_map, List.mem_filter, decide_eq_true_eq]
  constructor
  · rintro ⟨⟨x, y⟩, ⟨heg, he1⟩, rfl⟩
    simp only at he1
    simpa [he1] using heg
  · intro h
    exact ⟨(a, b), ⟨h, rfl⟩, rfl⟩

/-! ### Topological sort correctness -/

theorem readyNode_spec (edges : List (String × String)) (rem : List String)
    (v : String) (h : readyNode edges rem = some v) :
    v ∈ rem ∧ ∀ u ∈ rem, (u, v) ∉ edges := by
  unfold readyNode at h
  refine ⟨List.mem_of_find?_eq_some h, ?_⟩
  have hp := List.find?_some h
  simp only [List.all_eq_true, decide_eq_true_eq] at hp
  exact hp

theorem topoAux_spec (edges : List (String × String)) :
    ∀ (fuel : Nat) (rem acc p : List String),
      topoAux edges fuel rem acc = some p → rem.Nodup →
      ∃ out, p = acc.reverse ++ out ∧ out.Nodup ∧
        (∀ v, v ∈ out ↔ v ∈ rem) ∧ TopoOrdered edges out := by
  intro fuel
  induction fuel with
  | zero =>
    intro rem acc p hp _
    unfold topoAux at hp
    by_cases hre : rem.isEmpty
    · rw [if_pos hre] at hp
      refine ⟨[], by simpa using hp.symm, List.nodup_nil, ?_, trivial⟩
      intro v
      rw [List.isEmpty_iff] at hre
      simp [hre]
    · rw [if_neg hre] at hp
      cases hp
  | succ fuel ih =>
    intro rem acc p hp hnd
    unfold topoAux at hp
    cases hready : readyNode edges rem with
    | none =>
      rw [hready] at hp
      by_cases hre : rem.isEmpty
      · rw [if_pos hre] at hp
        refine ⟨[], by simpa using hp.symm, List.nodup_nil, ?_, trivial⟩
        intro v
        rw [List.isEmpty_iff] at hre
        simp [hre]
      · rw [if_neg hre] at hp
        cases hp
    | some v =>
      rw [hready] at hp
      obtain ⟨hvrem, hvready⟩ := readyNode_spec edges rem v hready
      obtain ⟨out, hpe, hout_nd, hout_mem, hout_topo⟩ :=
        ih (rem.erase v) (v :: acc) p hp (hnd.erase v)
      have hverase : v ∉ rem.erase v := by
        intro hmem
        exact ((List.Nodup.mem_erase_iff hnd).mp hmem).1 rfl
      refine ⟨v :: out, ?_, ?_, ?_, ?_⟩
      · rw [hpe, List.reverse_cons, List.append_assoc, List.singleton_append]
      · exact List.nodup_cons.mpr ⟨fun h => hverase ((hout_mem v).mp h), hout_nd⟩
      · intro x
        constructor
        · intro hx
          rcases List.mem_cons.mp hx with rfl | hx
          · exact hvrem
          · exact List.mem_of_mem_erase ((hout_mem x).mp hx)
        · intro hx
          by_cases hxv : x = v
          · exact hxv ▸ List.mem_cons_self _ _
          · exact List.mem_cons_of_mem _
              ((hout_mem x).mpr ((List.Nodup.mem_erase_iff hnd).mpr ⟨hxv, hx⟩))
      · rw [TopoOrdered]
        refine ⟨?_, hout_topo⟩
        intro u hu
        rcases List.mem_cons.mp hu with rfl | hu
        · exact hvready u hvrem
        · exact hvready u (List.mem_of_mem_erase ((hout_mem u).mp hu))

theorem topoSortM_spec (i : InputData) (p : List String)
    (h : topoSortM i = some p) :
    p.Nodup ∧ (∀ v, v ∈ p ↔ v ∈ mNodes i) ∧
      TopoOrdered (hierarchyEdges i) p := by
  obtain ⟨out, hpe, hnd, hmem, htopo⟩ :=
    topoAux_spec (hierarchyEdges i) (mNodes i).length (mNodes i) [] p h
      (nodup_dedupFirst _)
  simp only [List.reverse_nil, List.nil_append] at hpe
  subst hpe
  exact ⟨hnd, hmem, htopo⟩

/-! ### The matrix-filling loop of `bottom_up_process` -/

theorem runBU_cons (i : InputData) (a : String) (t : List String)
    (mat : String → String → ℚ) :
    runBU i (a :: t) mat = runBU i t (buStep i mat a) := by
  simp [runBU, List.foldl_cons]

theorem runBU_not_mem (i : InputData) :
    ∀ (p : List String) (mat : String → String → ℚ) (m : String),
      m ∉ p → runBU i p mat m = mat m := by
  intro p
  induction p with
  | nil => intro mat m _; rfl
  | cons a t ih =>
    intro mat m hm
    rw [runBU_cons]
    have hma : m ≠ a := fun h => hm (h ▸ List.mem_cons_self _ _)
    have hmt : m ∉ t := fun h => hm (List.mem_cons_of_mem _ h)
    rw [ih _ _ hmt]
    exact Function.update_noteq hma _ _

theorem rowFor_congr (i : InputData) (m : String)
    (mat1 mat2 : String → String → ℚ)
    (h : ∀ c ∈ buChildren i m, mat1 c = mat2 c) :
    rowFor i mat1 m = rowFor i mat2 m := by
  unfold rowFor
  by_cases hleaf : predsOf (hierarchyEdges i) m = []
  · simp [hleaf]
  · by_cases hc : buChildren i m = []
    · simp [hleaf, hc]
    · simp only [hleaf, if_false, hc]
      funext d
      have : (buChildren i m).map (fun c => mat1 c d) =
          (buChildren i m).map (fun c => mat2 c d) := by
        apply List.map_congr_left
        intro c hcm
        rw [h c hcm]
      rw [this]

theorem runBU_fixpoint (i : InputData) :
    ∀ (p : List String) (mat : String → String → ℚ),
      p.Nodup → TopoOrdered (hierarchyEdges i) p →
      ∀ m ∈ p, runBU i p mat m = rowFor i (runBU i p mat) m := by
  intro p
  induction p with
  | nil => intro mat _ _ m hm; cases hm
  | cons a t ih =>
    intro mat hnd htopo m hm
    rw [TopoOrdered] at htopo
    obtain ⟨hord, htopo_t⟩ := htopo
    have hnotmem : a ∉ t := (List.nodup_cons.mp hnd).1
    have hndt : t.Nodup := (List.nodup_cons.mp hnd).2
    have hchild_not : ∀ c ∈ buChildren i a, c ∉ a :: t := by
      intro c hc hmem
      have hcp : c ∈ predsOf (hierarchyEdges i) a := List.mem_of_mem_filter hc
      exact hord c hmem ((mem_predsOf _ _ _).mp hcp)
    rcases List.mem_cons.mp hm with rfl | hmt
    · have hlhs : runBU i (m :: t) mat m = rowFor i mat m := by
        rw [runBU_cons, runBU_not_mem i t _ _ hnotmem]
        exact Function.update_same _ _ _
      rw [hlhs]
      apply rowFor_congr
      intro c hc
      have hcne : c ≠ m := fun h => hchild_not c hc (h ▸ List.mem_cons_self _ _)
      have hcnt : c ∉ t := fun h => hchild_not c hc (List.mem_cons_of_mem _ h)
      rw [runBU_cons, runBU_not_mem i t _ _ hcnt]
      exact (Function.update_noteq hcne _ _).symm
    · rw [runBU_cons]
      exact ih (buStep i mat a) hndt htopo_t m hmt

theorem foldl_checked_none (i : InputData) :
    ∀ p : List String, p.foldl (buStepChecked i) none = none := by
  intro p
  induction p with
  | nil => rfl
  | cons a t ih => simpa [List.foldl_cons, buStepChecked] using ih

theorem foldl_checked_some (i : InputData) :
    ∀ (p : List String) (mat mat' : String → String → ℚ),
      p.foldl (buStepChecked i) (some mat) = some mat' →
      mat' = runBU i p mat := by
  intro p
  induction p with
  | nil =>
    intro mat mat' h
    simpa [runBU] using (Option.some.inj h).symm
  | cons a t ih =>
    intro mat mat' h
    rw [List.foldl_cons] at h
    by_cases hma : a ∈ missionIds i
    · rw [buStepChecked, if_pos hma] at h
      rw [runBU_cons]
      exact ih _ _ h
    · rw [buStepChecked, if_neg hma] at h
      rw [foldl_checked_none] at h
      cases h

/-- Unpacking a successful `bottom_up_process` run: the traversal path the
topological sort produced and the matrix as the loop over it leaves it. -/
theorem bottom_up_process_eq (i : InputData) (mat : String → String → ℚ)
    (h : bottom_up_process i = some mat) :
    ∃ p, topoSortM i = some p ∧ mat = runBU i p matZero ∧ p.Nodup ∧
      (∀ v, v ∈ p ↔ v ∈ mNodes i) ∧ TopoOrdered (hierarchyEdges i) p := by
  unfold bottom_up_process at h
  cases hts : topoSortM i with
  | none => rw [hts] at h; cases h
  | some p =>
    rw [hts] at h
    obtain ⟨hnd, hmem, htopo⟩ := topoSortM_spec i p hts
    exact ⟨p, rfl, foldl_checked_some i p _ _ h, hnd, hmem, htopo⟩

theorem mission_mem_mNodes (i : InputData) (m : String)
    (h : m ∈ missionIds i) : m ∈ mNodes i := by
  unfold mNodes
  rw [mem_dedupFirst]
  exact List.mem_append_left _ h

/-! ### Bounds of the bottom-up matrix -/

theorem list_sum_le_mul (l : List ℚ) (h : ∀ x ∈ l, x ≤ 100) :
    l.sum ≤ (l.length : ℚ) * 100 := by
  induction l with
  | nil => simp
  | cons a t ih =>
    have ha : a ≤ 100 := h a (List.mem_cons_self _ _)
    have ht : t.sum ≤ (t.length : ℚ) * 100 :=
      ih (fun x hx => h x (List.mem_cons_of_mem _ hx))
    simp only [List.sum_cons, List.length_cons]
    push_cast
    linarith

theorem rowFor_bounds (i : InputData) (mat : String → String → ℚ)
    (hmat : ∀ c d, 0 ≤ mat c d ∧ mat c d ≤ 100) (m d : String) :
    0 ≤ rowFor i mat m d ∧ rowFor i mat m d ≤ 100 := by
  unfold rowFor
  by_cases hleaf : predsOf (hierarchyEdges i) m = []
  · rw [if_pos hleaf]
    unfold leafRow
    by_cases hd : d ∈ connectedDataNodes i m
    · rw [if_pos hd]; norm_num
    · rw [if_neg hd]; norm_num
  · rw [if_neg hleaf]
    by_cases hc : buChildren i m = []
    · rw [if_pos hc]; norm_num
    · rw [if_neg hc]
      have hlen : 0 < ((buChildren i m).length : ℚ) := by
        have : buChildren i m ≠ [] := hc
        have hl : 0 < (buChildren i m).length := List.length_pos.mpr this
        exact_mod_cast hl
      have hmem : ∀ x ∈ (buChildren i m).map (fun c => mat c d), 0 ≤ x := by
        intro x hx
        obtain ⟨c, _, rfl⟩ := List.mem_map.mp hx
        exact (hmat c d).1
      have hmem2 : ∀ x ∈ (buChildren i m).map (fun c => mat c d), x ≤ 100 := by
        intro x hx
        obtain ⟨c, _, rfl⟩ := List.mem_map.mp hx
        exact (hmat c d).2
      constructor
      · exact div_nonneg (List.sum_nonneg hmem) (le_of_lt hlen)
      · rw [div_le_iff₀ hlen]
        calc ((buChildren i m).map (fun c => mat c d)).sum
            ≤ (((buChildren i m).map (fun c => mat c d)).length : ℚ) * 100 :=
              list_sum_le_mul _ hmem2
          _ = 100 * ((buChildren i m).length : ℚ) := by
              rw [List.length_map, mul_comm]

theorem runBU_bounds (i : InputData) :
    ∀ (p : List String) (mat : String → String → ℚ),
      (∀ c d, 0 ≤ mat c d ∧ mat c d ≤ 100) →
      ∀ m d, 0 ≤ runBU i p mat m d ∧ runBU i p mat m d ≤ 100 := by
  intro p
  induction p with
  | nil => intro mat hmat m d; exact hmat m d
  | cons a t ih =>
    intro mat hmat m d
    rw [runBU_cons]
    apply ih
    intro c e
    unfold buStep
    by_cases hca : c = a
    · subst hca
      rw [Function.update_same]
      exact rowFor_bounds i mat hmat c e
    · rw [Function.update_noteq hca]
      exact hmat c e

/-! ### Claim theorems: the bottom-up aggregator -/

/-- C6: for every acyclic hierarchy (a successful topological sort) and
every mission with at least one hierarchy child, the final bottom-up row of
that mission is the element-wise arithmetic mean of the final rows of its
direct children. -/
theorem C6_internal_row_is_mean (i : InputData) (mat : String → String → ℚ)
    (hbu : bottom_up_process i = some mat) (m : String)
    (hm : m ∈ missionIds i) (hc : buChildren i m ≠ []) (d : String) :
    mat m d = ((buChildren i m).map (fun c => mat c d)).sum /
      ((buChildren i m).length : ℚ) := by
  obtain ⟨p, hts, hmat, hnd, hmem, htopo⟩ := bottom_up_process_eq i mat hbu
  have hmp : m ∈ p := (hmem m).mpr (mission_mem_mNodes i m hm)
  subst hmat
  have hfix := runBU_fixpoint i p matZero hnd htopo m hmp
  rw [hfix]
  have hpreds : predsOf (hierarchyEdges i) m ≠ [] := by
    intro h0
    apply hc
    unfold buChildren
    rw [h0]
    rfl
  unfold rowFor
  rw [if_neg hpreds, if_neg hc]

/-- Witness for C6 at the two-level example: the row of `M2` is the mean of
the single row of its child `M1`. -/
theorem C6_witness :
    buChildren exTwoLevel "M2" ≠ [] ∧
    ((bottom_up_process exTwoLevel).getD matZero) "M2" "D1" =
      ((buChildren exTwoLevel "M2").map
        (fun c => ((bottom_up_process exTwoLevel).getD matZero) c "D1")).sum /
        ((buChildren exTwoLevel "M2").length : ℚ) :=
  ⟨by decide,
    C6_internal_row_is_mean exTwoLevel _ rfl "M2" (by decide) (by decide) "D1"⟩

/-- C9: on a successful bottom-up run every matrix entry lies in [0, 100]. -/
theorem C9_entries_in_range (i : InputData) (mat : String → String → ℚ)
    (hbu : bottom_up_process i = some mat) (m d : String) :
    0 ≤ mat m d ∧ mat m d ≤ 100 := by
  obtain ⟨p, hts, hmat, _, _, _⟩ := bottom_up_process_eq i mat hbu
  subst hmat
  apply runBU_bounds
  intro c e
  unfold matZero
  norm_num

/-- Witness for C9 at the two-level example. -/
theorem C9_witness :
    0 ≤ ((bottom_up_process exTwoLevel).getD matZero) "M1" "D1" ∧
      ((bottom_up_process exTwoLevel).getD matZero) "M1" "D1" ≤ 100 :=
  C9_entries_in_range exTwoLevel _ rfl "M1" "D1"

/-! ### Claim theorems: cycle behaviour and malformed input -/

/-- C1 (code bug): on the cyclic hierarchy of scenario B the criticality
computation silently completes, returning a full normalized score map and
no error of any kind, while the bottom-up computation fails with an
unstructured crash (the caught topological-sort failure is only logged and
the loop then reads the unbound `traversal_path` name), not a
CyclicHierarchy error. -/
theorem C1_cycle_behaviour :
    bottom_up_process exCycle = none ∧
      bfs_dfs_analysis exCycle 10 [] = some ([("Data D", 1)], ["D"]) := by
  constructor
  · rfl
  · simp [bfs_dfs_analysis, rawCriticalityScores, critStep, calculate_depth,
      calcDepthList, predsOf, succsOf, combinedEdges, hierarchyEdges,
      usageEdges, exCycle, dataIds, dedupFirst, dedupFirstAux,
      calculate_breadth, maxD, minD, dataLabel]

/-- C3 (code bug): a usage edge referencing the unknown identifier `DX`
does not fail graph construction: `add_edges_from` silently creates a node
for it, the leaf branch filter drops it, and the bottom-up computation
completes normally with an all-zero row instead of rejecting with
MalformedInput before any computation. -/
theorem C3_unknown_id_silently_accepted :
    (bottom_up_process exUnknown).isSome = true ∧
      ((bottom_up_process exUnknown).getD matZero) "M1" "D1" = 0 := by
  constructor
  · rfl
  · simp [bottom_up_process, topoSortM, topoAux, readyNode, mNodes,
      missionIds, dataIds, hierarchyEdges, usageEdges, combinedEdges,
      exUnknown, dedupFirst, dedupFirstAux, buStepChecked, buStep, rowFor,
      predsOf, leafRow, connectedDataNodes, matZero, buChildren]

/-- C4 (code bug): on the cyclic hierarchy, the dependency-closure
computation of the importance propagator diverges for every recursion
budget: `get_all_dependencies` has no visited set, no memoization and no
configured traversal bound, so the mutual recursion between the two cycle
members never returns. -/
theorem C4_closure_diverges_on_cycle (fuel : Nat) :
    get_all_dependencies (pagerankEdges exCycle) fuel "A" = none := by
  have key : ∀ f : Nat,
      get_all_dependencies (pagerankEdges exCycle) f "A" = none ∧
      get_all_dependencies (pagerankEdges exCycle) f "B" = none := by
    intro f
    induction f with
    | zero => exact ⟨rfl, rfl⟩
    | succ f ih =>
      have hsA : succsOf (pagerankEdges exCycle) "A" = ["B", "D"] := by rfl
      have hsB : succsOf (pagerankEdges exCycle) "B" = ["A"] := by rfl
      constructor
      · rw [get_all_dependencies, hsA]
        simp [depsStep, ih.2]
      · rw [get_all_dependencies, hsB]
        simp [depsStep, ih.1]
  exact (key fuel).1

/-! ### Well-formed inputs: data nodes have no incoming edges -/

theorem WF_target_is_mission (i : InputData) (hwf : WFInput i)
    (a b : String) (h : (a, b) ∈ combinedEdges i) : b ∈ missionIds i := by
  unfold combinedEdges at h
  rcases List.mem_append.mp h with h | h
  · unfold hierarchyEdges at h
    obtain ⟨r, hr, heq⟩ := List.mem_map.mp h
    injection heq with h1 h2
    exact h2 ▸ (hwf.2.2.1 r hr).2
  · unfold usageEdges at h
    obtain ⟨r, hr, heq⟩ := List.mem_map.mp h
    injection heq with h1 h2
    exact h2 ▸ (hwf.2.2.2.1 r hr).2

theorem WF_data_no_preds (i : InputData) (hwf : WFInput i) (d : String)
    (hd : d ∈ dataIds i) : predsOf (combinedEdges i) d = [] := by
  unfold predsOf
  have hfil : (combinedEdges i).filter (fun e => decide (e.2 = d)) = [] := by
    rw [List.filter_eq_nil_iff]
    rintro ⟨a, b⟩ he
    simp only [decide_eq_true_eq]
    intro h2
    have hb : b ∈ missionIds i := WF_target_is_mission i hwf a b he
    exact hwf.2.2.2.2 b hb (h2 ▸ hd)
  rw [hfil]
  rfl

theorem calculate_depth_no_preds (g : List (String × String)) (d : String)
    (hpred : predsOf g d = []) (fuel : Nat) (vis : List String) :
    calculate_depth g (fuel + 1) d vis =
      some (0, if d ∈ vis then vis else d :: vis) := by
  rw [calculate_depth]
  by_cases hdv : d ∈ vis
  · rw [if_pos hdv, if_pos hdv]
  · rw [if_neg hdv, if_neg hdv, hpred]
    simp [calcDepthList]

theorem critFold_closed (i : InputData) (hwf : WFInput i) (fuel : Nat) :
    ∀ (ds : List String) (acc : List (String × ℚ)) (vis : List String),
      (∀ d ∈ ds, d ∈ dataIds i) →
      ∃ visF,
        ds.foldl (critStep (combinedEdges i) (fuel + 1)) (some (acc, vis)) =
          some (acc ++ ds.map (fun d =>
            (d, (calculate_breadth (combinedEdges i) d : ℚ) + 1)), visF) := by
  intro ds
  induction ds with
  | nil =>
    intro acc vis _
    exact ⟨vis, by simp⟩
  | cons d t ih =>
    intro acc vis hmem
    have hd : d ∈ dataIds i := hmem d (List.mem_cons_self _ _)
    have hstep : critStep (combinedEdges i) (fuel + 1) (some (acc, vis)) d =
        some (acc ++ [(d, (calculate_breadth (combinedEdges i) d : ℚ) + 1)],
          if d ∈ vis then vis else d :: vis) := by
      have hcd := calculate_depth_no_preds (combinedEdges i) d
        (WF_data_no_preds i hwf d hd) fuel vis
      simp only [critStep, hcd]
      norm_num
    rw [List.foldl_cons, hstep]
    obtain ⟨visF, hfold⟩ :=
      ih (acc ++ [(d, (calculate_breadth (combinedEdges i) d : ℚ) + 1)])
        (if d ∈ vis then vis else d :: vis)
        (fun x hx => hmem x (List.mem_cons_of_mem _ hx))
    refine ⟨visF, ?_⟩
    rw [hfold]
    simp [List.append_assoc]

theorem rawCriticalityScores_closed (i : InputData) (hwf : WFInput i)
    (fuel : Nat) (vis : List String) :
    ∃ visF, rawCriticalityScores i (fuel + 1) vis =
      some ((dataIds i).map (fun d =>
        (d, (calculate_breadth (combinedEdges i) d : ℚ) + 1)), visF) := by
  obtain ⟨visF, h⟩ :=
    critFold_closed i hwf fuel (dataIds i) [] vis (fun d hd => hd)
  exact ⟨visF, by simpa [rawCriticalityScores] using h⟩

/-! ### Claim theorems: the criticality scorer -/

/-- C5 counterexample: the depth traversal's visited set is not allocated
fresh per invocation: it is the retained mutable default of
`calculate_depth`, and after one invocation on the single-edge example it
already holds `D1`, which is the state the next invocation starts from. -/
theorem C5_visited_retained_counterexample :
    (bfs_dfs_analysis exSingle 10 []).map (fun r => r.2) = some ["D1"] ∧
      some ["D1"] ≠ some ([] : List String) := by
  constructor
  · rfl
  · simp

/-- C5 (amended): repeated invocations of the criticality computation do
return identical score maps, not because the visited set is fresh (it is
retained across invocations), but because on well-formed input every
operational-data vertex has no incoming edges, so its depth is 0 whatever
visited state the traversal inherited. -/
theorem C5_scores_independent_of_visited (i : InputData) (hwf : WFInput i)
    (fuel : Nat) (vis1 vis2 : List String) :
    (bfs_dfs_analysis i (fuel + 1) vis1).map (fun r => r.1) =
      (bfs_dfs_analysis i (fuel + 1) vis2).map (fun r => r.1) := by
  obtain ⟨vF1, h1⟩ := rawCriticalityScores_closed i hwf fuel vis1
  obtain ⟨vF2, h2⟩ := rawCriticalityScores_closed i hwf fuel vis2
  unfold bfs_dfs_analysis
  rw [h1, h2]
  rfl

/-- Witness for the amended C5: an invocation starting from a polluted
visited state returns the same scores as one starting from the empty
state. -/
theorem C5_witness :
    WFInput exSingle ∧
      (bfs_dfs_analysis exSingle 10 ["Z"]).map (fun r => r.1) =
        (bfs_dfs_analysis exSingle 10 []).map (fun r => r.1) :=
  ⟨by decide, C5_scores_independent_of_visited exSingle (by decide) 9 ["Z"] []⟩

theorem filter_of_map {α β : Type} (f : α → β) (p : β → Bool) (l : List α) :
    (l.map f).filter p = (l.filter (fun a => p (f a))).map f := by
  induction l with
  | nil => rfl
  | cons a t ih =>
    simp only [List.map_cons, List.filter_cons]
    cases hp : p (f a) <;> simp [hp, ih]

theorem succs_eq_usingMissions (i : InputData) (hwf : WFInput i) (d : String)
    (hd : d ∈ dataIds i) :
    succsOf (combinedEdges i) d = usingMissions i d := by
  unfold succsOf usingMissions
  congr 1
  unfold combinedEdges
  rw [List.filter_append]
  have h1 : (hierarchyEdges i).filter (fun e => decide (e.1 = d)) = [] := by
    rw [List.filter_eq_nil_iff]
    rintro ⟨a, b⟩ he
    simp only [decide_eq_true_eq]
    intro h2
    unfold hierarchyEdges at he
    obtain ⟨r, hr, heq⟩ := List.mem_map.mp he
    injection heq with hc hp
    have ha : a ∈ missionIds i := hc ▸ (hwf.2.2.1 r hr).1
    exact hwf.2.2.2.2 a ha (h2 ▸ hd)
  rw [h1, List.nil_append]
  unfold usageEdges
  rw [filter_of_map]
  rw [List.map_map]
  rfl

/-- C10: on well-formed input a data vertex has no incoming edges, its
computed depth is 0 whatever the inherited visited state, and its raw
criticality score `breadth + 1 / (depth + 1)` is exactly the number of
missions directly using it plus one. -/
theorem C10_data_depth_zero_and_score (i : InputData) (hwf : WFInput i)
    (d : String) (hd : d ∈ dataIds i) (fuel : Nat) (vis : List String) :
    (calculate_depth (combinedEdges i) (fuel + 1) d vis).map (fun r => r.1) =
        some 0 ∧
      ∃ raws visF, rawCriticalityScores i (fuel + 1) vis = some (raws, visF) ∧
        (d, ((usingMissions i d).length : ℚ) + 1) ∈ raws := by
  have hpred := WF_data_no_preds i hwf d hd
  constructor
  · rw [calculate_depth_no_preds _ _ hpred]
    rfl
  · obtain ⟨visF, h⟩ := rawCriticalityScores_closed i hwf fuel vis
    refine ⟨_, visF, h, ?_⟩
    have hb : calculate_breadth (combinedEdges i) d =
        (usingMissions i d).length := by
      unfold calculate_breadth
      rw [succs_eq_usingMissions i hwf d hd]
    rw [← hb]
    exact List.mem_map.mpr ⟨d, hd, rfl⟩

/-- Witness for C10 at the single-edge example. -/
theorem C10_witness :
    (calculate_depth (combinedEdges exSingle) 10 "D1" []).map (fun r => r.1) =
        some 0 ∧
      ∃ raws visF, rawCriticalityScores exSingle 10 [] = some (raws, visF) ∧
        ("D1", ((usingMissions exSingle "D1").length : ℚ) + 1) ∈ raws :=
  C10_data_depth_zero_and_score exSingle (by decide) "D1" (by decide) 9 []

/-! ### Claim theorem: leaf rows of the bottom-up matrix -/

theorem mem_usingMissions (i : InputData) (d m : String) :
    m ∈ usingMissions i d ↔
      ∃ r ∈ i.Mission_OperationalData,
        r.OperationalData = d ∧ r.Mission = m := by
  unfold usingMissions
  rw [mem_dedupFirst]
  simp only [List.mem_map, List.mem_filter, decide_eq_true_eq]
  constructor
  · rintro ⟨r, ⟨hr, hod⟩, rfl⟩
    exact ⟨r, hr, hod, rfl⟩
  · rintro ⟨r, hr, hod, rfl⟩
    exact ⟨r, ⟨hr, hod⟩, rfl⟩

theorem mem_connectedDataNodes (i : InputData) (hwf : WFInput i)
    (m d : String) (hd : d ∈ dataIds i) :
    d ∈ connectedDataNodes i m ↔ m ∈ usingMissions i d := by
  unfold connectedDataNodes
  rw [List.mem_filter]
  simp only [decide_eq_true_eq]
  rw [mem_predsOf, mem_usingMissions]
  constructor
  · rintro ⟨hcomb, -⟩
    unfold combinedEdges at hcomb
    rcases List.mem_append.mp hcomb with hh | hu
    · exfalso
      unfold hierarchyEdges at hh
      obtain ⟨r, hr, heq⟩ := List.mem_map.mp hh
      injection heq with h1 h2
      have : d ∈ missionIds i := h1 ▸ (hwf.2.2.1 r hr).1
      exact hwf.2.2.2.2 d this hd
    · unfold usageEdges at hu
      obtain ⟨r, hr, heq⟩ := List.mem_map.mp hu
      injection heq with h1 h2
      exact ⟨r, hr, h1, h2⟩
  · rintro ⟨r, hr, h1, h2⟩
    refine ⟨?_, hd⟩
    unfold combinedEdges
    refine List.mem_append.mpr (Or.inr ?_)
    unfold usageEdges
    exact List.mem_map.mpr ⟨r, hr, by rw [h1, h2]⟩

/-- C7: on a successful bottom-up run over well-formed input, the row of a
leaf mission (zero hierarchy children) holds 100 exactly in the columns of
the data nodes directly linked to it by a usage edge and 0 elsewhere; in
particular every entry of a leaf row is 0 or 100. -/
theorem C7_leaf_rows (i : InputData) (mat : String → String → ℚ)
    (hbu : bottom_up_process i = some mat) (hwf : WFInput i) (m : String)
    (hm : m ∈ missionIds i) (hleaf : predsOf (hierarchyEdges i) m = [])
    (d : String) (hd : d ∈ dataIds i) :
    mat m d = (if m ∈ usingMissions i d then 100 else 0) ∧
      (mat m d = 0 ∨ mat m d = 100) := by
  obtain ⟨p, hts, hmat, hnd, hmem, htopo⟩ := bottom_up_process_eq i mat hbu
  have hmp : m ∈ p := (hmem m).mpr (mission_mem_mNodes i m hm)
  subst hmat
  have hfix := runBU_fixpoint i p matZero hnd htopo m hmp
  have hrow : runBU i p matZero m d =
      (if m ∈ usingMissions i d then 100 else 0) := by
    rw [hfix]
    unfold rowFor
    rw [if_pos hleaf]
    unfold leafRow
    simp only [mem_connectedDataNodes i hwf m d hd]
  refine ⟨hrow, ?_⟩
  rw [hrow]
  by_cases hmu : m ∈ usingMissions i d
  · rw [if_pos hmu]; right; rfl
  · rw [if_neg hmu]; left; rfl

/-- Witness for C7: the leaf mission `M1` of the two-level example holds
100 in the `D1` column, which it uses directly. -/
theorem C7_witness :
    ((bottom_up_process exTwoLevel).getD matZero) "M1" "D1" =
        (if "M1" ∈ usingMissions exTwoLevel "D1" then 100 else 0) ∧
      (((bottom_up_process exTwoLevel).getD matZero) "M1" "D1" = 0 ∨
        ((bottom_up_process exTwoLevel).getD matZero) "M1" "D1" = 100) :=
  C7_leaf_rows exTwoLevel _ rfl (by decide) "M1" (by decide) (by decide)
    "D1" (by decide)

/-! ### Paths -/

theorem isPath_ne_nil (g : List (String × String)) (s w : String)
    (p : List String) (h : IsPath g s w p) : p ≠ [] := by
  obtain ⟨hh, -, -⟩ := h
  cases p with
  | nil => cases hh
  | cons a t => exact List.cons_ne_nil a t

theorem isPath_getLastD (g : List (String × String)) (s w : String)
    (p : List String) (h : IsPath g s w p) : p.getLastD "" = w := by
  obtain ⟨-, hl, -⟩ := h
  rw [List.getLastD_eq_getLast?, hl]
  rfl

theorem isPath_length_pos (g : List (String × String)) (s w : String)
    (p : List String) (h : IsPath g s w p) : 0 < p.length :=
  List.length_pos.mpr (isPath_ne_nil g s w p h)

theorem isPath_singleton (g : List (String × String)) (s : String) :
    IsPath g s s [s] :=
  ⟨rfl, rfl, List.chain'_singleton s⟩

theorem isPath_extend (g : List (String × String)) (s w x : String)
    (p : List String) (h : IsPath g s w p) (hx : (w, x) ∈ g) :
    IsPath g s x (p ++ [x]) := by
  obtain ⟨hh, hl, hc⟩ := h
  have hne : p ≠ [] := isPath_ne_nil g s w p ⟨hh, hl, hc⟩
  refine ⟨?_, List.getLast?_concat _, ?_⟩
  · rw [List.head?_append_of_ne_nil _ hne]
    exact hh
  · refine List.chain'_append.mpr ⟨hc, List.chain'_singleton x, ?_⟩
    intro y hy z hz
    rw [hl] at hy
    cases hy
    cases hz
    exact hx

theorem isPath_split_last (g : List (String × String)) (s w : String)
    (qp : List String) (h : IsPath g s w qp) (hlen : 2 ≤ qp.length) :
    ∃ u, IsPath g s u qp.dropLast ∧ (u, w) ∈ g ∧
      qp.dropLast.length + 1 = qp.length := by
  obtain ⟨hh, hl, hc⟩ := h
  have hne : qp ≠ [] := by
    intro h0
    rw [h0] at hlen
    simp at hlen
  have hqp : qp.dropLast ++ [qp.getLast hne] = qp :=
    List.dropLast_append_getLast hne
  have hwlast : qp.getLast hne = w := by
    have hx := List.getLast?_eq_getLast qp hne
    rw [hx] at hl
    exact Option.some.inj hl
  have hdlen : qp.dropLast.length = qp.length - 1 := List.length_dropLast qp
  have hdne : qp.dropLast ≠ [] := by
    have : 0 < qp.dropLast.length := by omega
    exact List.length_pos.mp this
  have hcsplit := List.chain'_append.mp (by rw [hqp]; exact hc)
  refine ⟨qp.dropLast.getLast hdne, ⟨?_, List.getLast?_eq_getLast _ hdne, hcsplit.1⟩, ?_, by omega⟩
  · have hh2 : (qp.dropLast ++ [qp.getLast hne]).head? = some s := by
      rw [hqp]; exact hh
    rw [List.head?_append_of_ne_nil _ hdne] at hh2
    exact hh2
  · have h3 := hcsplit.2.2
    have := h3 (qp.dropLast.getLast hdne)
      (by rw [List.getLast?_eq_getLast _ hdne]; rfl) (qp.getLast hne) rfl
    rw [hwlast] at this
    exact this

theorem path_all_visited (g : List (String × String)) (V : List String)
    (hcl : ∀ v ∈ V, ∀ x, (v, x) ∈ g → x ∈ V) :
    ∀ (qp : List String) (s w : String), IsPath g s w qp → s ∈ V → w ∈ V := by
  intro qp
  induction qp with
  | nil => intro s w h _; cases h.1
  | cons a t ih =>
    intro s w h hs
    obtain ⟨hh, hl, hc⟩ := h
    have has : a = s := by simpa using hh
    cases t with
    | nil =>
      have hwa : w = a := by simpa using hl.symm
      rw [hwa, has]
      exact hs
    | cons b t2 =>
      have hab : (a, b) ∈ g := (List.chain'_cons.mp hc).1
      have hbV : b ∈ V := hcl a (has ▸ hs) b hab
      refine ih b w ⟨rfl, ?_, (List.chain'_cons.mp hc).2⟩ hbV
      rw [← List.getLast?_cons_cons (a := a)]
      exact hl

/-! ### The recursive dependency closure -/

theorem depsStep_none (recurse : String → Option (Finset String))
    (d : String) : depsStep recurse none d = none := by
  unfold depsStep
  cases recurse d <;> rfl

theorem foldl_depsStep_none (recurse : String → Option (Finset String)) :
    ∀ l : List String, l.foldl (depsStep recurse) none = none := by
  intro l
  induction l with
  | nil => rfl
  | cons d t ih => rw [List.foldl_cons, depsStep_none]; exact ih

theorem foldl_depsStep_some (recurse : String → Option (Finset String)) :
    ∀ (l : List String) (s0 S : Finset String),
      l.foldl (depsStep recurse) (some s0) = some S →
      s0 ⊆ S ∧ ∀ d ∈ l, ∃ sd, recurse d = some sd ∧ sd ⊆ S := by
  intro l
  induction l with
  | nil =>
    intro s0 S h
    obtain rfl : s0 = S := Option.some.inj h
    exact ⟨Finset.Subset.refl _, by intro d hd; cases hd⟩
  | cons d t ih =>
    intro s0 S h
    rw [List.foldl_cons] at h
    cases hrd : recurse d with
    | none =>
      have hstep : depsStep recurse (some s0) d = none := by
        unfold depsStep; rw [hrd]
      rw [hstep, foldl_depsStep_none] at h
      cases h
    | some sd =>
      have hstep : depsStep recurse (some s0) d = some (s0 ∪ sd) := by
        unfold depsStep; rw [hrd]
      rw [hstep] at h
      obtain ⟨hsub, hall⟩ := ih _ _ h
      refine ⟨Finset.Subset.trans Finset.subset_union_left hsub, ?_⟩
      intro x hx
      rcases List.mem_cons.mp hx with rfl | hxt
      · exact ⟨sd, hrd, Finset.Subset.trans Finset.subset_union_right hsub⟩
      · exact hall x hxt

theorem foldl_depsStep_mem (recurse : String → Option (Finset String)) :
    ∀ (l : List String) (s0 S : Finset String),
      l.foldl (depsStep recurse) (some s0) = some S →
      ∀ w ∈ S, w ∈ s0 ∨ ∃ d ∈ l, ∃ sd, recurse d = some sd ∧ w ∈ sd := by
  intro l
  induction l with
  | nil =>
    intro s0 S h w hw
    obtain rfl : s0 = S := Option.some.inj h
    exact Or.inl hw
  | cons d t ih =>
    intro s0 S h w hw
    rw [List.foldl_cons] at h
    cases hrd : recurse d with
    | none =>
      have hstep : depsStep recurse (some s0) d = none := by
        unfold depsStep; rw [hrd]
      rw [hstep, foldl_depsStep_none] at h
      cases h
    | some sd =>
      have hstep : depsStep recurse (some s0) d = some (s0 ∪ sd) := by
        unfold depsStep; rw [hrd]
      rw [hstep] at h
      rcases ih _ _ h w hw with hu | ⟨d2, hd2, sd2, hrd2, hwsd2⟩
      · rcases Finset.mem_union.mp hu with h1 | h2
        · exact Or.inl h1
        · exact Or.inr ⟨d, List.mem_cons_self _ _, sd, hrd, h2⟩
      · exact Or.inr ⟨d2, List.mem_cons_of_mem _ hd2, sd2, hrd2, hwsd2⟩

/-- Every member of the recursive closure is reachable by a path of at
least one edge. -/
theorem get_all_dependencies_path (g : List (String × String)) :
    ∀ (fuel : Nat) (v : String) (S : Finset String),
      get_all_dependencies g fuel v = some S →
      ∀ w ∈ S, ∃ q, IsPath g v w q ∧ 2 ≤ q.length := by
  intro fuel
  induction fuel with
  | zero => intro v S h; cases h
  | succ fuel ih =>
    intro v S h w hw
    rw [get_all_dependencies] at h
    rcases foldl_depsStep_mem _ _ _ _ h w hw with
      hdir | ⟨d, hd, sd, hrd, hwsd⟩
    · have hvw : (v, w) ∈ g := (mem_succsOf _ _ _).mp (List.mem_toFinset.mp hdir)
      exact ⟨[v, w], ⟨rfl, rfl, List.chain'_pair.mpr hvw⟩, by norm_num⟩
    · have hvd : (v, d) ∈ g := (mem_succsOf _ _ _).mp hd
      obtain ⟨q, ⟨hh, hl, hc⟩, hlen⟩ := ih d sd hrd w hwsd
      have hqne : q ≠ [] := isPath_ne_nil g d w q ⟨hh, hl, hc⟩
      refine ⟨v :: q, ⟨rfl, ?_, ?_⟩, ?_⟩
      · cases q with
        | nil => exact absurd rfl hqne
        | cons b t => rw [List.getLast?_cons_cons]; exact hl
      · refine List.chain'_cons'.mpr ⟨?_, hc⟩
        intro y hy
        rw [hh] at hy
        cases hy
        exact hvd
      · simp only [List.length_cons]
        omega

/-- Every vertex reachable by a path of at least one edge is a member of
the recursive closure (when the recursion returned at all). -/
theorem path_mem_get_all_dependencies (g : List (String × String)) :
    ∀ (q : List String) (fuel : Nat) (v w : String) (S : Finset String),
      get_all_dependencies g fuel v = some S → IsPath g v w q →
      2 ≤ q.length → w ∈ S := by
  intro q
  induction q with
  | nil => intro fuel v w S _ _ hl; simp at hl
  | cons a t ih =>
    intro fuel v w S h hp hl
    obtain ⟨hh, hlast, hc⟩ := hp
    have hav : a = v := by simpa using hh
    cases t with
    | nil => simp at hl
    | cons d rest =>
      have hvd : (v, d) ∈ g := hav ▸ (List.chain'_cons.mp hc).1
      cases fuel with
      | zero => cases h
      | succ fuel =>
        rw [get_all_dependencies] at h
        have hdmem : d ∈ succsOf g v := (mem_succsOf _ _ _).mpr hvd
        cases rest with
        | nil =>
          have hwd : w = d := by simpa using hlast.symm
          have hsub := (foldl_depsStep_some _ _ _ _ h).1
          exact hwd ▸ hsub (List.mem_toFinset.mpr hdmem)
        | cons x rest2 =>
          obtain ⟨sd, hrd, hsd⟩ := (foldl_depsStep_some _ _ _ _ h).2 d hdmem
          apply hsd
          refine ih fuel d w sd hrd ⟨rfl, ?_, (List.chain'_cons.mp hc).2⟩ ?_
          · rw [← List.getLast?_cons_cons (a := a)]
            exact hlast
          · simp only [List.length_cons]
            omega

/-! ### The breadth-first search invariant -/

theorem pairwise_of_all {α : Type} (R : α → α → Prop) :
    ∀ l : List α, (∀ a ∈ l, ∀ b ∈ l, R a b) → List.Pairwise R l := by
  intro l
  induction l with
  | nil => intro _; exact List.Pairwise.nil
  | cons a t ih =>
    intro h
    refine List.Pairwise.cons ?_ (ih ?_)
    · intro b hb
      exact h a (List.mem_cons_self _ _) b (List.mem_cons_of_mem _ hb)
    · intro x hx y hy
      exact h x (List.mem_cons_of_mem _ hx) y (List.mem_cons_of_mem _ hy)

theorem bfsInv_initial (g : List (String × String)) (s e : String) :
    BfsInv g s e [[s]] [] := by
  refine ⟨?_, List.pairwise_singleton _ _, List.not_mem_nil e,
    1, le_refl 1, ?_, ?_, ?_⟩
  · intro p hp
    rcases List.mem_singleton.mp hp with rfl
    exact ⟨s, rfl, isPath_singleton g s⟩
  · intro p hp
    rcases List.mem_singleton.mp hp with rfl
    simp
  · intro w qp hqp hlen
    obtain ⟨hh, hl, -⟩ := hqp
    cases qp with
    | nil => cases hh
    | cons a t =>
      cases t with
      | nil =>
        have has : a = s := by simpa using hh
        have haw : a = w := by simpa using hl
        refine Or.inr ⟨[s], List.mem_singleton_self _, ?_, by simp⟩
        rw [show w = s from haw.symm.trans has]
        rfl
      | cons b t2 => simp at hlen
  · intro v hv
    cases hv

theorem bfsInv_pop_visited (g : List (String × String)) (s e : String)
    (p : List String) (rest : List (List String)) (visited : List String)
    (hinv : BfsInv g s e (p :: rest) visited)
    (hvis : p.getLastD "" ∈ visited) : BfsInv g s e rest visited := by
  obtain ⟨hval, hsort, he, L, hL1, hbound, hE, hV⟩ := hinv
  obtain ⟨w0, hw0, hpw0⟩ := hval p (List.mem_cons_self _ _)
  have hw0node : w0 = p.getLastD "" := by
    rw [List.getLastD_eq_getLast?, hw0]
    rfl
  have hplast : p.getLast? = some (p.getLastD "") := hw0node ▸ hw0
  refine ⟨fun q hq => hval q (List.mem_cons_of_mem _ hq),
    hsort.of_cons, he, L, hL1,
    fun q hq => hbound q (List.mem_cons_of_mem _ hq), ?_, ?_⟩
  · intro w qp hqp hlen
    rcases hE w qp hqp hlen with hw | ⟨r, hr, hrl, hrlen⟩
    · exact Or.inl hw
    · rcases List.mem_cons.mp hr with rfl | hrrest
      · left
        have : some (r.getLastD "") = some w := hplast.symm.trans hrl
        exact (Option.some.inj this) ▸ hvis
      · exact Or.inr ⟨r, hrrest, hrl, hrlen⟩
  · intro v hv x hx
    rcases hV v hv x hx with h1 | ⟨r, hr, hrl, hrlen⟩
    · exact Or.inl h1
    · rcases List.mem_cons.mp hr with rfl | hrrest
      · left
        have : some (r.getLastD "") = some x := hplast.symm.trans hrl
        exact (Option.some.inj this) ▸ hvis
      · exact Or.inr ⟨r, hrrest, hrl, hrlen⟩

theorem bfsInv_pop_new (g : List (String × String)) (s e : String)
    (p : List String) (rest : List (List String)) (visited : List String)
    (hinv : BfsInv g s e (p :: rest) visited)
    (hnvis : p.getLastD "" ∉ visited) (hnode_e : p.getLastD "" ≠ e) :
    BfsInv g s e
      (rest ++ (succsOf g (p.getLastD "")).map (fun nb => p ++ [nb]))
      (p.getLastD "" :: visited) := by
  obtain ⟨hval, hsort, he, L, hL1, hbound, hE, hV⟩ := hinv
  obtain ⟨w0, hw0, hpw0⟩ := hval p (List.mem_cons_self _ _)
  have hw0node : w0 = p.getLastD "" := by
    rw [List.getLastD_eq_getLast?, hw0]
    rfl
  have hpnode : IsPath g s (p.getLastD "") p := hw0node ▸ hpw0
  have hplast : p.getLast? = some (p.getLastD "") := hw0node ▸ hw0
  have hpLbound := hbound p (List.mem_cons_self _ _)
  have hsort_p : ∀ r ∈ rest, p.length ≤ r.length :=
    (List.pairwise_cons.mp hsort).1
  have hsort_rest : List.Pairwise
      (fun p q : List String => p.length ≤ q.length) rest :=
    (List.pairwise_cons.mp hsort).2
  have hplen_pos : 0 < p.length := isPath_length_pos _ _ _ _ hpnode
  refine ⟨?_, ?_, ?_, p.length, hplen_pos, ?_, ?_, ?_⟩
  · -- validity
    intro q hq
    rcases List.mem_append.mp hq with hq | hq
    · exact hval q (List.mem_cons_of_mem _ hq)
    · obtain ⟨nb, hnb, rfl⟩ := List.mem_map.mp hq
      exact ⟨nb, List.getLast?_concat _,
        isPath_extend g s (p.getLastD "") nb p hpnode
          ((mem_succsOf _ _ _).mp hnb)⟩
  · -- sortedness
    rw [List.pairwise_append]
    refine ⟨hsort_rest, ?_, ?_⟩
    · apply pairwise_of_all
      intro a ha b hb
      obtain ⟨nb1, _, rfl⟩ := List.mem_map.mp ha
      obtain ⟨nb2, _, rfl⟩ := List.mem_map.mp hb
      simp
    · intro a ha b hb
      obtain ⟨nb, hnb, rfl⟩ := List.mem_map.mp hb
      have h1 : a.length ≤ L + 1 := (hbound a (List.mem_cons_of_mem _ ha)).2
      have h2 : L ≤ p.length := hpLbound.1
      simp only [List.length_append, List.length_cons, List.length_nil]
      omega
  · -- e not visited
    intro hmem
    rcases List.mem_cons.mp hmem with h1 | h2
    · exact hnode_e h1.symm
    · exact he h2
  · -- two-level bounds at the new level p.length
    intro q hq
    rcases List.mem_append.mp hq with hq | hq
    · have h1 := hbound q (List.mem_cons_of_mem _ hq)
      have h2 := hsort_p q hq
      have h3 := hpLbound.1
      exact ⟨h2, by omega⟩
    · obtain ⟨nb, hnb, rfl⟩ := List.mem_map.mp hq
      simp only [List.length_append, List.length_cons, List.length_nil]
      omega
  · -- path coverage at the new level
    intro w qp hqp hlen
    by_cases hle : qp.length ≤ L
    · rcases hE w qp hqp hle with hw | ⟨r, hr, hrl, hrlen⟩
      · exact Or.inl (List.mem_cons_of_mem _ hw)
      · rcases List.mem_cons.mp hr with rfl | hrrest
        · left
          have hnw : some (r.getLastD "") = some w := hplast.symm.trans hrl
          exact (Option.some.inj hnw) ▸ List.mem_cons_self _ _
        · exact Or.inr ⟨r, List.mem_append_left _ hrrest, hrl, hrlen⟩
    · have hq1 : qp.length = L + 1 := by
        have := hpLbound.2
        omega
      have hp1 : p.length = L + 1 := by
        have := hpLbound.1
        omega
      obtain ⟨u, hqp', hu_w, hlen'⟩ :=
        isPath_split_last g s w qp hqp (by omega)
      have hdLlen : qp.dropLast.length = L := by omega
      rcases hE u qp.dropLast hqp' (by omega) with hu | ⟨r, hr, hrl, hrlen⟩
      · rcases hV u hu w hu_w with hw | ⟨r, hr, hrl, hrlen⟩
        · exact Or.inl (List.mem_cons_of_mem _ hw)
        · rcases List.mem_cons.mp hr with rfl | hrrest
          · left
            have hnw : some (r.getLastD "") = some w := hplast.symm.trans hrl
            exact (Option.some.inj hnw) ▸ List.mem_cons_self _ _
          · exact Or.inr ⟨r, List.mem_append_left _ hrrest, hrl, by omega⟩
      · exfalso
        rcases List.mem_cons.mp hr with rfl | hrrest
        · omega
        · have := hsort_p r hrrest
          omega
  · -- successor coverage of visited vertices
    intro v hv x hx
    rcases List.mem_cons.mp hv with rfl | hvold
    · refine Or.inr ⟨p ++ [x],
        List.mem_append_right _
          (List.mem_map.mpr ⟨x, (mem_succsOf _ _ _).mpr hx, rfl⟩),
        List.getLast?_concat _, ?_⟩
      simp only [List.length_append, List.length_cons, List.length_nil]
      omega
    · rcases hV v hvold x hx with h1 | ⟨r, hr, hrl, hrlen⟩
      · exact Or.inl (List.mem_cons_of_mem _ h1)
      · rcases List.mem_cons.mp hr with rfl | hrrest
        · left
          have hnx : some (r.getLastD "") = some x := hplast.symm.trans hrl
          exact (Option.some.inj hnx) ▸ List.mem_cons_self _ _
        · refine Or.inr ⟨r, List.mem_append_left _ hrrest, hrl, ?_⟩
          have := hpLbound.1
          omega

/-- The breadth-first search, run from any state satisfying the invariant:
a nonempty result is a genuine path from `s` to `e` of minimal vertex
count, and when any path from `s` to `e` exists the result is nonempty
(the search cannot return the no-path marker `[]`). -/
theorem bfsAux_spec (g : List (String × String)) (s e : String) :
    ∀ (fuel : Nat) (queue : List (List String)) (visited : List String)
      (res : List String),
      bfsAux g e fuel queue visited = some res →
      BfsInv g s e queue visited →
      (res ≠ [] → IsPath g s e res ∧
        ∀ q, IsPath g s e q → res.length ≤ q.length) ∧
      ((∃ q, IsPath g s e q) → res ≠ []) := by
  intro fuel
  induction fuel with
  | zero => intro queue visited res h _; cases h
  | succ fuel ih =>
    intro queue visited res h hinv
    cases queue with
    | nil =>
      simp only [bfsAux] at h
      obtain rfl : ([] : List String) = res := Option.some.inj h
      obtain ⟨hval, hsort, he, L, hL1, hbound, hE, hV⟩ := hinv
      have hcl : ∀ v ∈ visited, ∀ x, (v, x) ∈ g → x ∈ visited := by
        intro v hv x hx
        rcases hV v hv x hx with h1 | ⟨r, hr, -, -⟩
        · exact h1
        · cases hr
      have hs : s ∈ visited := by
        rcases hE s [s] (isPath_singleton g s) (by simpa using hL1) with
          h1 | ⟨r, hr, -, -⟩
        · exact h1
        · cases hr
      refine ⟨fun habs => absurd rfl habs, ?_⟩
      rintro ⟨q, hq⟩
      exact absurd (path_all_visited g visited hcl q s e hq hs) he
    | cons p rest =>
      simp only [bfsAux] at h
      by_cases hnodee : p.getLastD "" = e
      · rw [if_pos hnodee] at h
        obtain rfl : p = res := Option.some.inj h
        obtain ⟨hval, hsort, he, L, hL1, hbound, hE, hV⟩ := hinv
        obtain ⟨w0, hw0, hpw0⟩ := hval p (List.mem_cons_self _ _)
        have hw0node : w0 = p.getLastD "" := by
          rw [List.getLastD_eq_getLast?, hw0]
          rfl
        have hpe : IsPath g s e p := by
          rw [← hnodee, ← hw0node]
          exact hpw0
        have hpne : p ≠ [] := isPath_ne_nil _ _ _ _ hpe
        refine ⟨fun _ => ⟨hpe, ?_⟩, fun _ => hpne⟩
        intro q hq
        by_contra hlt
        push_neg at hlt
        have hbp := hbound p (List.mem_cons_self _ _)
        have hqL : q.length ≤ L := by omega
        rcases hE e q hq hqL with h1 | ⟨r, hr, hrl, hrlen⟩
        · exact he h1
        · rcases List.mem_cons.mp hr with rfl | hrrest
          · omega
          · have := (List.pairwise_cons.mp hsort).1 r hrrest
            omega
      · rw [if_neg hnodee] at h
        by_cases hnodev : p.getLastD "" ∈ visited
        · rw [if_pos hnodev] at h
          exact ih rest visited res h
            (bfsInv_pop_visited g s e p rest visited
              ⟨hinv.1, hinv.2.1, hinv.2.2.1, hinv.2.2.2⟩ hnodev)
        · rw [if_neg hnodev] at h
          exact ih _ _ res h
            (bfsInv_pop_new g s e p rest visited
              ⟨hinv.1, hinv.2.1, hinv.2.2.1, hinv.2.2.2⟩ hnodev hnodee)

/-- `find_shortest_path` at its initial state: completeness and minimality
in one statement. -/
theorem find_shortest_path_spec (g : List (String × String)) (s e : String)
    (fuel : Nat) (res : List String)
    (h : find_shortest_path g s e fuel = some res) :
    (res ≠ [] → IsPath g s e res ∧
      ∀ q, IsPath g s e q → res.length ≤ q.length) ∧
    ((∃ q, IsPath g s e q) → res ≠ []) :=
  bfsAux_spec g s e fuel [[s]] [] res h (bfsInv_initial g s e)

/-! ### Claim theorems: the importance propagator -/

/-- C2 counterexample: in the one-edge example the shortest path from `M1`
to `D1` has one edge (the BFS itself returns the two-vertex path
`[M1, D1]`), so the claimed weight is `PageRank(D1) / 1`; the code divides
by the Python `len` of the returned vertex list and produces
`PageRank(D1) / 2` instead (here with the rank function constantly 1; the
real PageRank of `D1` on this graph is positive as well). -/
theorem C2_counterexample :
    find_shortest_path (pagerankEdges exSingle) "M1" "D1" 10 =
        some ["M1", "D1"] ∧
      adjusted_score exSingle (fun _ => 1) 10 "M1" "D1" = 1 / 2 ∧
      adjusted_score exSingle (fun _ => 1) 10 "M1" "D1" ≠
        (fun _ => (1 : ℚ)) "D1" / 1 := by
  have h2 : adjusted_score exSingle (fun _ => 1) 10 "M1" "D1" = 1 / 2 := by
    simp [adjusted_score, find_shortest_path, bfsAux, succsOf, pagerankEdges,
      exSingle, dedupFirst, dedupFirstAux, adjust_score_for_path_length]
  refine ⟨by decide, h2, ?_⟩
  rw [h2]
  norm_num

/-- C2 (amended): for every operational-data vertex in a mission's
dependency closure, the pre-normalization weight equals PageRank divided by
the number of vertices on a shortest path from the mission to the vertex
(one more than its edge count): the BFS result is a genuine path of
minimal vertex count and the code divides by the length of that vertex
list. -/
theorem C2_weight_divides_by_vertex_count (i : InputData) (pr : String → ℚ)
    (fd fb : Nat) (m v : String) (S : Finset String)
    (hS : get_all_dependencies (pagerankEdges i) fd m = some S)
    (hv : v ∈ S) (_hd : v ∈ dataIds i) (p : List String)
    (hbfs : find_shortest_path (pagerankEdges i) m v fb = some p) :
    IsPath (pagerankEdges i) m v p ∧
      (∀ q, IsPath (pagerankEdges i) m v q → p.length ≤ q.length) ∧
      0 < p.length ∧
      adjusted_score i pr fb m v = pr v / (p.length : ℚ) := by
  obtain ⟨q0, hq0, -⟩ := get_all_dependencies_path _ fd m S hS v hv
  obtain ⟨hmin, hcomp⟩ := find_shortest_path_spec _ m v fb p hbfs
  have hne : p ≠ [] := hcomp ⟨q0, hq0⟩
  obtain ⟨hpath, hopt⟩ := hmin hne
  have hpos : 0 < p.length := List.length_pos.mpr hne
  refine ⟨hpath, hopt, hpos, ?_⟩
  simp only [adjusted_score, hbfs, adjust_score_for_path_length, if_pos hpos]

/-- Witness for the amended C2 at the one-edge example. -/
theorem C2_witness :
    IsPath (pagerankEdges exSingle) "M1" "D1" ["M1", "D1"] ∧
      (∀ q, IsPath (pagerankEdges exSingle) "M1" "D1" q →
        (["M1", "D1"] : List String).length ≤ q.length) ∧
      0 < (["M1", "D1"] : List String).length ∧
      adjusted_score exSingle (fun _ => 1) 10 "M1" "D1" =
        (fun _ => (1 : ℚ)) "D1" /
          (((["M1", "D1"] : List String).length : ℚ)) :=
  C2_weight_divides_by_vertex_count exSingle (fun _ => 1) 5 10 "M1" "D1"
    {"D1"} (by decide) (by decide) (by decide) ["M1", "D1"] (by decide)

theorem mem_depsData (i : InputData) (S : Finset String) (v : String) :
    v ∈ depsData i S ↔ v ∈ S ∧ v ∈ dataIds i := by
  unfold depsData
  rw [Finset.mem_filter]
  unfold isOperationalData
  rfl

/-- C8: on every mission with at least one reachable operational-data node
(and the recursive closure returning), the normalized importance scores sum
to exactly 1 (using the positivity of PageRank, here a hypothesis on the
rank parameter); when the weight sum is 0 the guard divides by 1, leaving
every score at 0; and every data node outside the mission's weighted set is
filled into the matrix with exactly 0. -/
theorem C8_importance_normalization (i : InputData) (pr : String → ℚ)
    (fd fb : Nat) (m : String) (S : Finset String)
    (hS : get_all_dependencies (pagerankEdges i) fd m = some S)
    (hpr0 : ∀ v, 0 ≤ pr v) :
    ((∃ d ∈ dataIds i, ∃ q,
        IsPath (pagerankEdges i) m d q ∧ 2 ≤ q.length) →
      (∀ v ∈ depsData i S, 0 < pr v) →
      (∀ v ∈ depsData i S,
        (find_shortest_path (pagerankEdges i) m v fb).isSome) →
      (depsData i S).sum (fun v => normalized_score i pr fb m S v) = 1) ∧
    (total_adjusted_score i pr fb m S = 0 →
      ∀ v ∈ depsData i S, normalized_score i pr fb m S v = 0) ∧
    (∀ d, d ∉ depsData i S → importance_entry i pr fb m S d = 0) := by
  have hadj_nonneg : ∀ v, 0 ≤ adjusted_score i pr fb m v := by
    intro v
    cases hfs : find_shortest_path (pagerankEdges i) m v fb with
    | none => simp [adjusted_score, hfs]
    | some p =>
      simp only [adjusted_score, hfs, adjust_score_for_path_length]
      by_cases hl : 0 < p.length
      · rw [if_pos hl]
        exact div_nonneg (hpr0 v) (by exact_mod_cast Nat.zero_le _)
      · rw [if_neg hl]
  refine ⟨?_, ?_, ?_⟩
  · rintro ⟨d0, hd0, q0, hq0, hq0len⟩ hprpos hbfsAll
    have hd0S : d0 ∈ S :=
      path_mem_get_all_dependencies _ q0 fd m d0 S hS hq0 hq0len
    have hd0dd : d0 ∈ depsData i S := (mem_depsData i S d0).mpr ⟨hd0S, hd0⟩
    have hne : (depsData i S).Nonempty := ⟨d0, hd0dd⟩
    have hadj_pos : ∀ v ∈ depsData i S, 0 < adjusted_score i pr fb m v := by
      intro v hv
      obtain ⟨hvS, hvd⟩ := (mem_depsData i S v).mp hv
      obtain ⟨qv, hqv, hqvlen⟩ := get_all_dependencies_path _ fd m S hS v hvS
      obtain ⟨p, hp⟩ := Option.isSome_iff_exists.mp (hbfsAll v hv)
      obtain ⟨hmin, hcomp⟩ := find_shortest_path_spec _ m v fb p hp
      have hpne : p ≠ [] := hcomp ⟨qv, hqv⟩
      have hppos : 0 < p.length := List.length_pos.mpr hpne
      simp only [adjusted_score, hp, adjust_score_for_path_length,
        if_pos hppos]
      exact div_pos (hprpos v hv) (by exact_mod_cast hppos)
    have htot_pos : 0 < total_adjusted_score i pr fb m S := by
      unfold total_adjusted_score
      exact Finset.sum_pos hadj_pos hne
    have hnorm : ∀ v ∈ depsData i S, normalized_score i pr fb m S v =
        adjusted_score i pr fb m v / total_adjusted_score i pr fb m S := by
      intro v _
      unfold normalized_score
      rw [if_pos htot_pos]
    rw [Finset.sum_congr rfl hnorm, ← Finset.sum_div]
    have hsum : (depsData i S).sum (fun v => adjusted_score i pr fb m v) =
        total_adjusted_score i pr fb m S := rfl
    rw [hsum]
    exact div_self (ne_of_gt htot_pos)
  · intro htot v hv
    have h0 : adjusted_score i pr fb m v = 0 := by
      unfold total_adjusted_score at htot
      exact (Finset.sum_eq_zero_iff_of_nonneg
        (fun x _ => hadj_nonneg x)).mp htot v hv
    unfold normalized_score
    rw [htot, if_neg (lt_irrefl 0), h0]
    norm_num
  · intro d hd
    unfold importance_entry
    rw [if_neg hd]

/-- Witness for C8 at the one-edge example with the constant rank 1. -/
theorem C8_witness :
    ((∃ d ∈ dataIds exSingle, ∃ q,
        IsPath (pagerankEdges exSingle) "M1" d q ∧ 2 ≤ q.length) →
      (∀ v ∈ depsData exSingle {"D1"}, 0 < (fun _ => (1 : ℚ)) v) →
      (∀ v ∈ depsData exSingle {"D1"},
        (find_shortest_path (pagerankEdges exSingle) "M1" v 10).isSome) →
      (depsData exSingle {"D1"}).sum
        (fun v => normalized_score exSingle (fun _ => 1) 10 "M1" {"D1"} v) =
        1) ∧
    (total_adjusted_score exSingle (fun _ => 1) 10 "M1" {"D1"} = 0 →
      ∀ v ∈ depsData exSingle {"D1"},
        normalized_score exSingle (fun _ => 1) 10 "M1" {"D1"} v = 0) ∧
    (∀ d, d ∉ depsData exSingle {"D1"} →
      importance_entry exSingle (fun _ => 1) 10 "M1" {"D1"} d = 0) :=
  C8_importance_normalization exSingle (fun _ => 1) 5 10 "M1" {"D1"}
    (by decide) (by intro v; norm_num)

end CriticalityAnalysis
